import Mathlib

/-!
Shallow embedding of `cpu_scheduling_algorithms/round_robin_scheduling.cpp`:
a Round Robin CPU scheduling simulation.  The C++ `uint32_t` times and ids
are modelled as `Nat` with an explicit `% 2^32` at every operation the
program performs that can wrap: the clock advance `time_elapsed += elapsed`
and the two subtractions of the `ProcessResult` constructor (`u32add`,
`u32sub` below).  The remaining arithmetic of the program cannot wrap on
`uint32_t` inputs and is modelled directly: all other uses of the fields
are comparisons, and the burst decrement `current.second -= elapsed` always
has `elapsed ≤ current.second` (`elapsed` is the minimum of the remaining
burst and the time slice), so it is exact.  The `std::queue` ready queue is
a `List` whose head is the queue front and whose back is the push end; the
`std::set<uint32_t>` of arrived ids is a `List Nat` used only through
membership, which is all the program ever asks of it.  The `while` loop of
`RRExecute` is modelled with explicit fuel, returning `none` when the fuel
runs out; nontermination of the C++ loop corresponds to `none` for every
fuel.
-/

/-- Model of `struct Process`: id, arrival time and burst time. -/
structure Process where
  id : Nat
  arrival_time : Nat
  burst_time : Nat
deriving DecidableEq, Repr

/-- Model of `struct ProcessResult : public Process`. -/
structure ProcessResult extends Process where
  completion_time : Nat
  turn_around_time : Nat
  waiting_time : Nat
deriving DecidableEq, Repr

/-- The modulus of `uint32_t` arithmetic. -/
def U32MOD : Nat := 4294967296

/-- Wrapping `uint32_t` addition on values below `U32MOD`. -/
def u32add (a b : Nat) : Nat := (a + b) % U32MOD

/-- Wrapping `uint32_t` subtraction on values below `U32MOD`. -/
def u32sub (a b : Nat) : Nat := (a + U32MOD - b) % U32MOD

/-- Model of the `ProcessResult(process, completion_time)` constructor:
`turn_around_time = completion_time - arrival_time` and
`waiting_time = turn_around_time - burst_time`, both `uint32_t`
subtractions that wrap modulo `2^32`. -/
def ProcessResult.ofCompletion (process : Process) (completion_time : Nat) :
    ProcessResult :=
  { toProcess := process
    completion_time := completion_time
    turn_around_time := u32sub completion_time process.arrival_time
    waiting_time :=
      u32sub (u32sub completion_time process.arrival_time)
        process.burst_time }

/-- Model of `CompareAT`: compare two processes by arrival time. -/
def CompareAT (p1 p2 : Process) : Bool :=
  p1.arrival_time < p2.arrival_time

/-- Model of `std::min_element(processes.begin(), processes.end(), CompareAT)`:
returns the first process with minimal arrival time, or `none` on an empty
vector (where the C++ would dereference the end iterator: undefined
behavior). -/
def minElementAT : List Process → Option Process
  | [] => none
  | p :: ps => some (ps.foldl (fun best q => if CompareAT q best then q else best) p)

/-- Model of `CheckArriveProcess`: walk the process list in order; every
process whose arrival time is at most `time_elapsed` and whose id is not in
`arrived_process` is appended to the back of the schedule queue with its full
burst time, and its id is added to the arrived set.  Returns the updated
(arrived set, schedule queue). -/
def CheckArriveProcess :
    List Process → List Nat → List (Process × Nat) → Nat →
    List Nat × List (Process × Nat)
  | [], arrived_process, schedule, _ => (arrived_process, schedule)
  | p :: ps, arrived_process, schedule, time_elapsed =>
    if time_elapsed < p.arrival_time ∨ p.id ∈ arrived_process then
      CheckArriveProcess ps arrived_process schedule time_elapsed
    else
      CheckArriveProcess ps (p.id :: arrived_process)
        (schedule ++ [(p, p.burst_time)]) time_elapsed

/-- Model of the `while (!schedule.empty())` loop of `RRExecute`, with
explicit fuel.  Each iteration pops the front pair, runs it for
`min(remaining, time_slice)` units, advances the clock, admits newly arrived
processes, then either re-enqueues the pair (remaining burst positive) or
emits a `ProcessResult` with the current clock as completion time.  The
clock advance is the wrapping `uint32_t` addition; the burst decrement is
exact because `elapsed` never exceeds the remaining burst.  `none` means
the fuel was exhausted before the queue emptied. -/
def RRLoop (processes : List Process) (time_slice : Nat) :
    Nat → List (Process × Nat) → List Nat → Nat → List ProcessResult →
    Option (List ProcessResult)
  | _, [], _, _, results => some results
  | 0, _ :: _, _, _, _ => none
  | fuel + 1, current :: rest, arrived_process, time_elapsed, results =>
    let elapsed := if current.2 > time_slice then time_slice else current.2
    let bt_left := current.2 - elapsed
    let t2 := u32add time_elapsed elapsed
    let ca := CheckArriveProcess processes arrived_process rest t2
    if bt_left > 0 then
      RRLoop processes time_slice fuel (ca.2 ++ [(current.1, bt_left)]) ca.1 t2 results
    else
      RRLoop processes time_slice fuel ca.2 ca.1 t2
        (results ++ [ProcessResult.ofCompletion current.1 t2])

/-- Total burst time of a process list; used as a fuel bound for `RRLoop`
(when the time slice is positive, each iteration consumes at least one unit
of some process's remaining burst or retires a zero-burst entry, so
`totalBurst + length + 1` fuel is never exhausted). -/
def totalBurst (processes : List Process) : Nat :=
  (processes.map Process.burst_time).sum

/-- Model of `RRExecute`: the clock starts at the minimal arrival time, the
arrival check runs once before the loop, then the loop runs until the queue
empties.  `none` models the two behaviors the C++ leaves undefined or
divergent: the empty process list (end-iterator dereference) and a loop that
never terminates (fuel exhaustion). -/
def RRExecute (processes : List Process) (time_slice : Nat) :
    Option (List ProcessResult) :=
  match minElementAT processes with
  | none => none
  | some m =>
    RRLoop processes time_slice (totalBurst processes + processes.length + 1)
      (CheckArriveProcess processes [] [] m.arrival_time).2
      (CheckArriveProcess processes [] [] m.arrival_time).1
      m.arrival_time []

/-- Instrumented copy of `RRLoop` that additionally records, in order, the id
of every process that is re-enqueued after a quantum (the
`schedule.push(current)` branch).  Used to analyse preemption; its first
projection is proved equal to `RRLoop`. -/
def RRLoopRequeues (processes : List Process) (time_slice : Nat) :
    Nat → List (Process × Nat) → List Nat → Nat → List ProcessResult →
    List Nat → Option (List ProcessResult × List Nat)
  | _, [], _, _, results, requeued => some (results, requeued)
  | 0, _ :: _, _, _, _, _ => none
  | fuel + 1, current :: rest, arrived_process, time_elapsed, results, requeued =>
    let elapsed := if current.2 > time_slice then time_slice else current.2
    let bt_left := current.2 - elapsed
    let t2 := u32add time_elapsed elapsed
    let ca := CheckArriveProcess processes arrived_process rest t2
    if bt_left > 0 then
      RRLoopRequeues processes time_slice fuel (ca.2 ++ [(current.1, bt_left)])
        ca.1 t2 results (requeued ++ [current.1.id])
    else
      RRLoopRequeues processes time_slice fuel ca.2 ca.1 t2
        (results ++ [ProcessResult.ofCompletion current.1 t2]) requeued

/-- Instrumented copy of `RRExecute` returning the results together with the
ordered list of ids of re-enqueue (preemption) events. -/
def RRExecuteRequeues (processes : List Process) (time_slice : Nat) :
    Option (List ProcessResult × List Nat) :=
  match minElementAT processes with
  | none => none
  | some m =>
    RRLoopRequeues processes time_slice (totalBurst processes + processes.length + 1)
      (CheckArriveProcess processes [] [] m.arrival_time).2
      (CheckArriveProcess processes [] [] m.arrival_time).1
      m.arrival_time [] []

/-- The queue entries that one call of `CheckArriveProcess` appends: the
processes of the list, in list order, whose arrival time is at most the
clock and whose id is not yet in the arrived set, each paired with its full
burst time. -/
def newArrivals (processes : List Process) (arrived_process : List Nat)
    (time_elapsed : Nat) : List (Process × Nat) :=
  (processes.filter
      (fun p => decide (p.arrival_time ≤ time_elapsed ∧ p.id ∉ arrived_process))).map
    (fun p => (p, p.burst_time))

/-- Total remaining burst time held in the ready queue. -/
def queueBurst (schedule : List (Process × Nat)) : Nat :=
  (schedule.map Prod.snd).sum

/-- Total burst time of the processes whose id has not yet been admitted. -/
def unarrivedBurst (processes : List Process) (arrived_process : List Nat) : Nat :=
  ((processes.filter (fun p => decide (p.id ∉ arrived_process))).map
    Process.burst_time).sum

/-- Model of the `PrintCell` lambda of `operator<<`:
`ostream << std::setw(17) << std::left << str` pads the string on the right
with spaces to width 17 (longer strings are written unpadded). -/
def PrintCell (s : String) : String :=
  s ++ String.mk (List.replicate (17 - s.length) ' ')

/-- The six header cells printed by `operator<<`, in source order. -/
def headerCells : List String :=
  ["Process ID", "Arrival Time", "Burst Time", "Completion Time",
   "Turnaround Time", "Waiting Time"]

/-- The six cells of one data row of `operator<<`, in source order
(`std::to_string` of each field). -/
def resultCells (p : ProcessResult) : List String :=
  [toString p.id, toString p.arrival_time, toString p.burst_time,
   toString p.completion_time, toString p.turn_around_time,
   toString p.waiting_time]

/-- One table row: each cell rendered through `PrintCell` and concatenated. -/
def renderRow (cells : List String) : String :=
  String.join (cells.map PrintCell)

/-- The non-strict arrival-time order induced by the strict comparator
`CompareAT`; `std::sort(…, CompareAT)` produces a sequence sorted by this
relation (the order among equal arrival times is unspecified by the C++
standard; the model fixes the stable order). -/
def ArrivalLE (p1 p2 : ProcessResult) : Prop :=
  p1.arrival_time ≤ p2.arrival_time

instance : DecidableRel ArrivalLE :=
  fun p1 p2 => Nat.decLe p1.arrival_time p2.arrival_time

instance : IsTotal ProcessResult ArrivalLE :=
  ⟨fun p1 p2 => Nat.le_total p1.arrival_time p2.arrival_time⟩

instance : IsTrans ProcessResult ArrivalLE :=
  ⟨fun _ _ _ h1 h2 => Nat.le_trans h1 h2⟩

/-- Model of `operator<<(ostream, results)`: copy the results, sort the copy
by arrival time, print the header row (ended by `std::endl`) and then one
row per result (each ended by `"\n"`). -/
def printResults (results : List ProcessResult) : String :=
  renderRow headerCells ++ "\n" ++
    String.join ((results.insertionSort ArrivalLE).map
      (fun p => renderRow (resultCells p) ++ "\n"))

/-- The hard-coded process list of the `Test` function. -/
def testProcesses : List Process :=
  [⟨0, 70, 3⟩, ⟨1, 9, 2⟩, ⟨2, 3, 39⟩, ⟨3, 5, 29⟩, ⟨4, 30, 90⟩]

/-- The results `RRExecute testProcesses 3` emits, in emission
(completion) order, with the derived fields computed as the
`ProcessResult` constructor does. -/
def testResults : List ProcessResult :=
  [ProcessResult.ofCompletion ⟨1, 9, 2⟩ 14,
   ProcessResult.ofCompletion ⟨0, 70, 3⟩ 80,
   ProcessResult.ofCompletion ⟨3, 5, 29⟩ 82,
   ProcessResult.ofCompletion ⟨2, 3, 39⟩ 100,
   ProcessResult.ofCompletion ⟨4, 30, 90⟩ 166]

theorem RRLoop_nil (processes : List Process) (time_slice fuel : Nat)
    (arrived : List Nat) (t : Nat) (results : List ProcessResult) :
    RRLoop processes time_slice fuel [] arrived t results = some results := by
  cases fuel <;> rfl

theorem RRLoop_succ_cons (processes : List Process) (time_slice fuel : Nat)
    (p : Process) (bt : Nat) (rest : List (Process × Nat)) (arrived : List Nat)
    (t : Nat) (results : List ProcessResult) :
    RRLoop processes time_slice (fuel + 1) ((p, bt) :: rest) arrived t results =
      if bt - (if bt > time_slice then time_slice else bt) > 0 then
        RRLoop processes time_slice fuel
          ((CheckArriveProcess processes arrived rest
              (u32add t (if bt > time_slice then time_slice else bt))).2 ++
            [(p, bt - (if bt > time_slice then time_slice else bt))])
          (CheckArriveProcess processes arrived rest
            (u32add t (if bt > time_slice then time_slice else bt))).1
          (u32add t (if bt > time_slice then time_slice else bt)) results
      else
        RRLoop processes time_slice fuel
          (CheckArriveProcess processes arrived rest
            (u32add t (if bt > time_slice then time_slice else bt))).2
          (CheckArriveProcess processes arrived rest
            (u32add t (if bt > time_slice then time_slice else bt))).1
          (u32add t (if bt > time_slice then time_slice else bt))
          (results ++ [ProcessResult.ofCompletion p
            (u32add t (if bt > time_slice then time_slice else bt))]) := rfl

theorem u32add_eq {a b : Nat} (h : a + b < U32MOD) : u32add a b = a + b := by
  unfold u32add U32MOD at *
  omega

theorem u32sub_exact {a b : Nat} (hba : b ≤ a) (ha : a < U32MOD) :
    u32sub a b = a - b := by
  unfold u32sub U32MOD at *
  omega

theorem u32sub_lt (a b : Nat) : u32sub a b < U32MOD := by
  unfold u32sub U32MOD
  omega

theorem u32sub_eq_zero_iff {a b : Nat} (ha : a < U32MOD) (hb : b < U32MOD) :
    u32sub a b = 0 ↔ a = b := by
  unfold u32sub U32MOD at *
  omega

theorem CheckArriveProcess_arrived_subset (l : List Process) :
    ∀ (arrived : List Nat) (sched : List (Process × Nat)) (t : Nat),
      arrived ⊆ (CheckArriveProcess l arrived sched t).1 := by
  induction l with
  | nil => intro arrived sched t; simp [CheckArriveProcess]
  | cons p ps ih =>
    intro arrived sched t
    by_cases h : t < p.arrival_time ∨ p.id ∈ arrived
    · simpa [CheckArriveProcess, h] using ih arrived sched t
    · simp only [CheckArriveProcess, if_neg h]
      exact fun x hx => ih _ _ t (List.mem_cons_of_mem _ hx)

theorem CheckArriveProcess_sched_mem (l : List Process) :
    ∀ (arrived : List Nat) (sched : List (Process × Nat)) (t : Nat)
      (pb : Process × Nat), pb ∈ (CheckArriveProcess l arrived sched t).2 →
      pb ∈ sched ∨ ∃ q ∈ l, q.arrival_time ≤ t ∧ pb = (q, q.burst_time) := by
  induction l with
  | nil =>
    intro arrived sched t pb h
    exact Or.inl (by simpa [CheckArriveProcess] using h)
  | cons p ps ih =>
    intro arrived sched t pb h
    by_cases hc : t < p.arrival_time ∨ p.id ∈ arrived
    · rcases ih arrived sched t pb (by simpa [CheckArriveProcess, hc] using h) with
        h1 | ⟨q, hq, hle, he⟩
      · exact Or.inl h1
      · exact Or.inr ⟨q, List.mem_cons_of_mem _ hq, hle, he⟩
    · have hnlt : ¬ t < p.arrival_time := fun hlt => hc (Or.inl hlt)
      rcases ih (p.id :: arrived) (sched ++ [(p, p.burst_time)]) t pb
          (by simpa [CheckArriveProcess, hc] using h) with
        h1 | ⟨q, hq, hle, he⟩
      · rcases List.mem_append.1 h1 with h2 | h2
        · exact Or.inl h2
        · exact Or.inr ⟨p, List.mem_cons_self _ _, le_of_not_lt hnlt,
            List.mem_singleton.1 h2⟩
      · exact Or.inr ⟨q, List.mem_cons_of_mem _ hq, hle, he⟩

theorem queueBurst_append (s1 s2 : List (Process × Nat)) :
    queueBurst (s1 ++ s2) = queueBurst s1 + queueBurst s2 := by
  simp [queueBurst]

theorem unarrivedBurst_cons (p : Process) (ps : List Process) (a : List Nat) :
    unarrivedBurst (p :: ps) a =
      (if p.id ∈ a then 0 else p.burst_time) + unarrivedBurst ps a := by
  by_cases h : p.id ∈ a <;> simp [unarrivedBurst, List.filter_cons, h]

theorem unarrivedBurst_mono (l : List Process) {a1 a2 : List Nat}
    (hsub : a1 ⊆ a2) : unarrivedBurst l a2 ≤ unarrivedBurst l a1 := by
  induction l with
  | nil => simp [unarrivedBurst]
  | cons p ps ih =>
    rw [unarrivedBurst_cons, unarrivedBurst_cons]
    have hh : (if p.id ∈ a2 then 0 else p.burst_time) ≤
        (if p.id ∈ a1 then 0 else p.burst_time) := by
      by_cases h1 : p.id ∈ a1
      · simp [h1, hsub h1]
      · by_cases h2 : p.id ∈ a2 <;> simp [h1, h2]
    omega

theorem CheckArriveProcess_measure (l : List Process) :
    ∀ (arrived : List Nat) (sched : List (Process × Nat)) (t : Nat),
      queueBurst (CheckArriveProcess l arrived sched t).2 +
          unarrivedBurst l (CheckArriveProcess l arrived sched t).1 ≤
        queueBurst sched + unarrivedBurst l arrived := by
  induction l with
  | nil => intro arrived sched t; simp [CheckArriveProcess, unarrivedBurst]
  | cons p ps ih =>
    intro arrived sched t
    by_cases hc : t < p.arrival_time ∨ p.id ∈ arrived
    · have hrw : CheckArriveProcess (p :: ps) arrived sched t =
          CheckArriveProcess ps arrived sched t := by
        simp [CheckArriveProcess, hc]
      rw [hrw, unarrivedBurst_cons, unarrivedBurst_cons]
      have hih := ih arrived sched t
      have hsub := CheckArriveProcess_arrived_subset ps arrived sched t
      have hh : (if p.id ∈ (CheckArriveProcess ps arrived sched t).1 then 0
            else p.burst_time) ≤
          (if p.id ∈ arrived then 0 else p.burst_time) := by
        by_cases h1 : p.id ∈ arrived
        · simp [h1, hsub h1]
        · by_cases h2 : p.id ∈ (CheckArriveProcess ps arrived sched t).1 <;>
            simp [h1, h2]
      omega
    · push_neg at hc
      have hrw : CheckArriveProcess (p :: ps) arrived sched t =
          CheckArriveProcess ps (p.id :: arrived)
            (sched ++ [(p, p.burst_time)]) t := by
        simp [CheckArriveProcess, hc.1, hc.2]
      rw [hrw, unarrivedBurst_cons, unarrivedBurst_cons]
      have hih := ih (p.id :: arrived) (sched ++ [(p, p.burst_time)]) t
      rw [queueBurst_append] at hih
      have hq1 : queueBurst [(p, p.burst_time)] = p.burst_time := by
        simp [queueBurst]
      have hsub := CheckArriveProcess_arrived_subset ps (p.id :: arrived)
        (sched ++ [(p, p.burst_time)]) t
      have hmem : p.id ∈ (CheckArriveProcess ps (p.id :: arrived)
          (sched ++ [(p, p.burst_time)]) t).1 :=
        hsub (List.mem_cons_self _ _)
      have hmono : unarrivedBurst ps (p.id :: arrived) ≤ unarrivedBurst ps arrived :=
        unarrivedBurst_mono ps (fun x hx => List.mem_cons_of_mem _ hx)
      have hL : (if p.id ∈ (CheckArriveProcess ps (p.id :: arrived)
          (sched ++ [(p, p.burst_time)]) t).1 then 0 else p.burst_time) = 0 := by
        simp [hmem]
      have hR : (if p.id ∈ arrived then 0 else p.burst_time) = p.burst_time := by
        simp [hc.2]
      rw [hL, hR]
      omega

theorem newArrivals_fresh_id (ps : List Process) (p : Process)
    (arrived : List Nat) (t : Nat) (h : ∀ q ∈ ps, q.id ≠ p.id) :
    newArrivals ps (p.id :: arrived) t = newArrivals ps arrived t := by
  unfold newArrivals
  congr 1
  apply List.filter_congr
  intro q hq
  apply decide_eq_decide.mpr
  simp [List.mem_cons, h q hq]

theorem CheckArriveProcess_sched_eq (l : List Process) :
    ∀ (arrived : List Nat) (sched : List (Process × Nat)) (t : Nat),
      l.Pairwise (fun q1 q2 => q1.id ≠ q2.id) →
      (CheckArriveProcess l arrived sched t).2 =
        sched ++ newArrivals l arrived t := by
  induction l with
  | nil => intro arrived sched t _; simp [CheckArriveProcess, newArrivals]
  | cons p ps ih =>
    intro arrived sched t hnd
    rcases List.pairwise_cons.1 hnd with ⟨hhead, htail⟩
    by_cases hc : t < p.arrival_time ∨ p.id ∈ arrived
    · have hrw : CheckArriveProcess (p :: ps) arrived sched t =
          CheckArriveProcess ps arrived sched t := by
        simp [CheckArriveProcess, hc]
      rw [hrw, ih arrived sched t htail]
      congr 1
      have hfalse : ¬ (p.arrival_time ≤ t ∧ p.id ∉ arrived) := by
        rcases hc with h1 | h1
        · exact fun hh => absurd hh.1 (not_le.mpr h1)
        · exact fun hh => hh.2 h1
      simp [newArrivals, List.filter_cons, hfalse]
    · have hnlt : ¬ t < p.arrival_time := fun hlt => hc (Or.inl hlt)
      have hni : p.id ∉ arrived := fun hm => hc (Or.inr hm)
      have hrw : CheckArriveProcess (p :: ps) arrived sched t =
          CheckArriveProcess ps (p.id :: arrived)
            (sched ++ [(p, p.burst_time)]) t := by
        simp [CheckArriveProcess, hc]
      rw [hrw, ih (p.id :: arrived) (sched ++ [(p, p.burst_time)]) t htail]
      rw [newArrivals_fresh_id ps p arrived t (fun q hq => (hhead q hq).symm)]
      have htrue : p.arrival_time ≤ t ∧ p.id ∉ arrived :=
        ⟨le_of_not_lt hnlt, hni⟩
      simp [newArrivals, List.filter_cons, htrue]

theorem RRLoop_isSome (processes : List Process) (time_slice : Nat)
    (hts : 1 ≤ time_slice) (hb : ∀ p ∈ processes, 1 ≤ p.burst_time) :
    ∀ (fuel : Nat) (sched : List (Process × Nat)) (arrived : List Nat)
      (t : Nat) (results : List ProcessResult),
      (∀ pb ∈ sched, 1 ≤ pb.2) →
      queueBurst sched + unarrivedBurst processes arrived < fuel →
      (RRLoop processes time_slice fuel sched arrived t results).isSome := by
  intro fuel
  induction fuel with
  | zero =>
    intro sched arrived t results _ hlt
    exact absurd hlt (Nat.not_lt_zero _)
  | succ f ih =>
    intro sched arrived t results hq hlt
    match sched with
    | [] => simp [RRLoop_nil]
    | (p, bt) :: rest =>
      rw [RRLoop_succ_cons]
      have hbt : 1 ≤ bt := hq (p, bt) (List.mem_cons_self _ _)
      set elapsed := if bt > time_slice then time_slice else bt with helapsed
      have he1 : 1 ≤ elapsed := by rw [helapsed]; split <;> omega
      have heb : elapsed ≤ bt := by rw [helapsed]; split <;> omega
      set t2 := u32add t elapsed with ht2
      have hmeas := CheckArriveProcess_measure processes arrived rest t2
      have hqrest : ∀ pb ∈ rest, 1 ≤ pb.2 :=
        fun pb hpb => hq pb (List.mem_cons_of_mem _ hpb)
      have hq2 : ∀ pb ∈ (CheckArriveProcess processes arrived rest t2).2,
          1 ≤ pb.2 := by
        intro pb hpb
        rcases CheckArriveProcess_sched_mem processes arrived rest t2 pb hpb with
          h1 | ⟨q, hql, _, he⟩
        · exact hqrest pb h1
        · rw [he]; exact hb q hql
      have hqb : queueBurst ((p, bt) :: rest) = bt + queueBurst rest := by
        simp [queueBurst]
      split
      · next hpos =>
        apply ih
        · intro pb hpb
          rcases List.mem_append.1 hpb with h1 | h1
          · exact hq2 pb h1
          · rw [List.mem_singleton.1 h1]; exact hpos
        · rw [queueBurst_append]
          have hsing : queueBurst [(p, bt - elapsed)] = bt - elapsed := by
            simp [queueBurst]
          omega
      · next hpos =>
        apply ih
        · exact hq2
        · omega

/-- The arithmetic facts that hold of every result the loop emits:
the completion time covers arrival plus full burst, and the two derived
fields are the exact differences the constructor computes. -/
def ResultOk (r : ProcessResult) : Prop :=
  r.arrival_time + r.burst_time ≤ r.completion_time ∧
  r.turn_around_time = r.completion_time - r.arrival_time ∧
  r.waiting_time = r.completion_time - r.arrival_time - r.burst_time

theorem RRLoop_results_invariant (processes : List Process) (time_slice : Nat) :
    ∀ (fuel : Nat) (sched : List (Process × Nat)) (arrived : List Nat)
      (t : Nat) (results out : List ProcessResult),
      RRLoop processes time_slice fuel sched arrived t results = some out →
      t + queueBurst sched + unarrivedBurst processes arrived < U32MOD →
      (∀ pb ∈ sched, pb.2 ≤ pb.1.burst_time ∧
        pb.1.arrival_time + (pb.1.burst_time - pb.2) ≤ t) →
      (∀ r ∈ results, ResultOk r ∧ r.completion_time ≤ t) →
      List.Pairwise (fun r1 r2 => r1.completion_time ≤ r2.completion_time)
        results →
      (∀ r ∈ out, ResultOk r) ∧
        List.Pairwise (fun r1 r2 => r1.completion_time ≤ r2.completion_time)
          out := by
  intro fuel
  induction fuel with
  | zero =>
    intro sched arrived t results out hrun hclock hsched hres hsort
    match sched with
    | [] =>
      rw [RRLoop_nil] at hrun
      cases hrun
      exact ⟨fun r hr => (hres r hr).1, hsort⟩
    | pb :: rest => exact absurd hrun (by simp [RRLoop])
  | succ f ih =>
    intro sched arrived t results out hrun hclock hsched hres hsort
    match sched with
    | [] =>
      rw [RRLoop_nil] at hrun
      cases hrun
      exact ⟨fun r hr => (hres r hr).1, hsort⟩
    | (p, bt) :: rest =>
      rw [RRLoop_succ_cons] at hrun
      have hhead := hsched (p, bt) (List.mem_cons_self _ _)
      have hpbt : bt ≤ p.burst_time := hhead.1
      have hpt : p.arrival_time + (p.burst_time - bt) ≤ t := hhead.2
      have hqb : queueBurst ((p, bt) :: rest) = bt + queueBurst rest := by
        simp [queueBurst]
      set elapsed := if bt > time_slice then time_slice else bt with helapsed
      have heb : elapsed ≤ bt := by rw [helapsed]; split <;> omega
      have hadd : t + elapsed < U32MOD := by omega
      have ht2e : u32add t elapsed = t + elapsed := u32add_eq hadd
      rw [ht2e] at hrun
      set t2 := t + elapsed with ht2
      have htle : t ≤ t2 := by omega
      have hmeas := CheckArriveProcess_measure processes arrived rest t2
      have hsched2 : ∀ pb ∈ (CheckArriveProcess processes arrived rest t2).2,
          pb.2 ≤ pb.1.burst_time ∧
            pb.1.arrival_time + (pb.1.burst_time - pb.2) ≤ t2 := by
        intro pb hpb
        rcases CheckArriveProcess_sched_mem processes arrived rest t2 pb hpb with
          h1 | ⟨q, _, hqt, he⟩
        · have := hsched pb (List.mem_cons_of_mem _ h1)
          exact ⟨this.1, le_trans this.2 htle⟩
        · rw [he]
          exact ⟨le_refl _, by simp; omega⟩
      have hres2 : ∀ r ∈ results, ResultOk r ∧ r.completion_time ≤ t2 :=
        fun r hr => ⟨(hres r hr).1, le_trans (hres r hr).2 htle⟩
      split at hrun
      · next hpos =>
        refine ih _ _ t2 results out hrun ?_ ?_ hres2 hsort
        · rw [queueBurst_append]
          have hsing : queueBurst [(p, bt - elapsed)] = bt - elapsed := by
            simp [queueBurst]
          omega
        · intro pb hpb
          rcases List.mem_append.1 hpb with h1 | h1
          · exact hsched2 pb h1
          · rw [List.mem_singleton.1 h1]
            constructor
            · simp; omega
            · simp; omega
      · next hpos =>
        refine ih _ _ t2 _ out hrun ?_ hsched2 ?_ ?_
        · omega
        · intro r hr
          rcases List.mem_append.1 hr with h1 | h1
          · exact hres2 r h1
          · rw [List.mem_singleton.1 h1]
            have h1c : p.arrival_time + p.burst_time ≤ t2 := by omega
            have ht2lt : t2 < U32MOD := by omega
            have hta : u32sub t2 p.arrival_time = t2 - p.arrival_time :=
              u32sub_exact (by omega) ht2lt
            have hwt : u32sub (u32sub t2 p.arrival_time) p.burst_time =
                t2 - p.arrival_time - p.burst_time := by
              rw [hta]
              exact u32sub_exact (by omega) (by omega)
            refine ⟨⟨?_, ?_, ?_⟩, le_refl _⟩
            · simp [ProcessResult.ofCompletion]
              omega
            · simpa [ProcessResult.ofCompletion] using hta
            · simpa [ProcessResult.ofCompletion] using hwt
        · rw [List.pairwise_append]
          refine ⟨hsort, List.pairwise_singleton _ _, ?_⟩
          intro r1 hr1 r2 hr2
          rw [List.mem_singleton.1 hr2]
          have := (hres r1 hr1).2
          simp [ProcessResult.ofCompletion]
          omega
theorem foldl_CompareAT_mem (ps : List Process) :
    ∀ b : Process,
      ps.foldl (fun best q => if CompareAT q best then q else best) b ∈
        b :: ps := by
  induction ps with
  | nil => intro b; simp
  | cons q qs ih =>
    intro b
    simp only [List.foldl_cons]
    by_cases hc : CompareAT q b
    · rw [if_pos hc]
      rcases List.mem_cons.1 (ih q) with h1 | h1
      · rw [h1]; exact List.mem_cons_of_mem _ (List.mem_cons_self _ _)
      · exact List.mem_cons_of_mem _ (List.mem_cons_of_mem _ h1)
    · rw [if_neg hc]
      rcases List.mem_cons.1 (ih b) with h1 | h1
      · rw [h1]; exact List.mem_cons_self _ _
      · exact List.mem_cons_of_mem _ (List.mem_cons_of_mem _ h1)

theorem foldl_CompareAT_le (ps : List Process) :
    ∀ b p : Process, p ∈ b :: ps →
      (ps.foldl (fun best q => if CompareAT q best then q else best)
          b).arrival_time ≤ p.arrival_time := by
  induction ps with
  | nil =>
    intro b p hp
    rw [List.mem_singleton.1 hp]
    simp
  | cons q qs ih =>
    intro b p hp
    simp only [List.foldl_cons]
    have hstep_b : (if CompareAT q b then q else b).arrival_time ≤
        b.arrival_time := by
      by_cases hc : CompareAT q b
      · rw [if_pos hc]
        have : q.arrival_time < b.arrival_time := by
          simpa [CompareAT] using hc
        omega
      · rw [if_neg hc]
    have hstep_q : (if CompareAT q b then q else b).arrival_time ≤
        q.arrival_time := by
      by_cases hc : CompareAT q b
      · rw [if_pos hc]
      · rw [if_neg hc]
        have : ¬ q.arrival_time < b.arrival_time := by
          simpa [CompareAT] using hc
        omega
    rcases List.mem_cons.1 hp with h1 | h1
    · rw [h1]
      exact le_trans
        (ih (if CompareAT q b then q else b) _ (List.mem_cons_self _ _))
        hstep_b
    rcases List.mem_cons.1 h1 with h2 | h2
    · rw [h2]
      exact le_trans
        (ih (if CompareAT q b then q else b) _ (List.mem_cons_self _ _))
        hstep_q
    · exact ih _ p (List.mem_cons_of_mem _ h2)

theorem minElementAT_isSome (processes : List Process)
    (hne : processes ≠ []) : ∃ m, minElementAT processes = some m := by
  match processes with
  | [] => exact absurd rfl hne
  | p :: ps => exact ⟨_, rfl⟩

theorem minElementAT_mem (processes : List Process) (m : Process)
    (hm : minElementAT processes = some m) : m ∈ processes := by
  match processes with
  | [] => cases hm
  | p :: ps =>
    have : m = ps.foldl (fun best q => if CompareAT q best then q else best) p := by
      simpa [minElementAT] using hm.symm
    rw [this]
    exact foldl_CompareAT_mem ps p

theorem minElementAT_le (processes : List Process) (m : Process)
    (hm : minElementAT processes = some m) :
    ∀ p ∈ processes, m.arrival_time ≤ p.arrival_time := by
  match processes with
  | [] => cases hm
  | p :: ps =>
    have : m = ps.foldl (fun best q => if CompareAT q best then q else best) p := by
      simpa [minElementAT] using hm.symm
    rw [this]
    exact fun x hx => foldl_CompareAT_le ps p x hx

theorem RRExecute_eq_loop (processes : List Process) (time_slice : Nat)
    (m : Process) (hm : minElementAT processes = some m) :
    RRExecute processes time_slice =
      RRLoop processes time_slice (totalBurst processes + processes.length + 1)
        (CheckArriveProcess processes [] [] m.arrival_time).2
        (CheckArriveProcess processes [] [] m.arrival_time).1
        m.arrival_time [] := by
  unfold RRExecute
  rw [hm]

theorem RRLoopRequeues_succ_cons (processes : List Process)
    (time_slice fuel : Nat) (p : Process) (bt : Nat)
    (rest : List (Process × Nat)) (arrived : List Nat) (t : Nat)
    (results : List ProcessResult) (requeued : List Nat) :
    RRLoopRequeues processes time_slice (fuel + 1) ((p, bt) :: rest) arrived t
        results requeued =
      if bt - (if bt > time_slice then time_slice else bt) > 0 then
        RRLoopRequeues processes time_slice fuel
          ((CheckArriveProcess processes arrived rest
              (u32add t (if bt > time_slice then time_slice else bt))).2 ++
            [(p, bt - (if bt > time_slice then time_slice else bt))])
          (CheckArriveProcess processes arrived rest
            (u32add t (if bt > time_slice then time_slice else bt))).1
          (u32add t (if bt > time_slice then time_slice else bt)) results
          (requeued ++ [p.id])
      else
        RRLoopRequeues processes time_slice fuel
          (CheckArriveProcess processes arrived rest
            (u32add t (if bt > time_slice then time_slice else bt))).2
          (CheckArriveProcess processes arrived rest
            (u32add t (if bt > time_slice then time_slice else bt))).1
          (u32add t (if bt > time_slice then time_slice else bt))
          (results ++ [ProcessResult.ofCompletion p
            (u32add t (if bt > time_slice then time_slice else bt))])
          requeued := rfl

theorem RRLoopRequeues_fst (processes : List Process) (time_slice : Nat) :
    ∀ (fuel : Nat) (sched : List (Process × Nat)) (arrived : List Nat)
      (t : Nat) (results : List ProcessResult) (requeued : List Nat),
      (RRLoopRequeues processes time_slice fuel sched arrived t results
          requeued).map Prod.fst =
        RRLoop processes time_slice fuel sched arrived t results := by
  intro fuel
  induction fuel with
  | zero =>
    intro sched arrived t results requeued
    cases sched <;> rfl
  | succ f ih =>
    intro sched arrived t results requeued
    match sched with
    | [] => rfl
    | (p, bt) :: rest =>
      rw [RRLoopRequeues_succ_cons, RRLoop_succ_cons]
      by_cases h : bt - (if bt > time_slice then time_slice else bt) > 0
      · rw [if_pos h, if_pos h]; exact ih _ _ _ _ _
      · rw [if_neg h, if_neg h]; exact ih _ _ _ _ _

theorem RRExecuteRequeues_fst (processes : List Process) (time_slice : Nat) :
    (RRExecuteRequeues processes time_slice).map Prod.fst =
      RRExecute processes time_slice := by
  unfold RRExecuteRequeues RRExecute
  cases minElementAT processes
  · rfl
  · exact RRLoopRequeues_fst _ _ _ _ _ _ _ _

theorem RRExecute_eq_none (processes : List Process) (time_slice : Nat)
    (hm : minElementAT processes = none) :
    RRExecute processes time_slice = none := by
  unfold RRExecute
  rw [hm]

theorem RRExecute_resultOk (processes : List Process) (time_slice : Nat)
    (rs : List ProcessResult)
    (hover : ∀ p ∈ processes,
      p.arrival_time + totalBurst processes < U32MOD)
    (h : RRExecute processes time_slice = some rs) :
    (∀ r ∈ rs, ResultOk r) ∧
      List.Pairwise (fun r1 r2 => r1.completion_time ≤ r2.completion_time)
        rs := by
  cases hme : minElementAT processes with
  | none => rw [RRExecute_eq_none _ _ hme] at h; cases h
  | some m =>
    rw [RRExecute_eq_loop _ _ m hme] at h
    refine RRLoop_results_invariant processes time_slice _ _ _ _ [] rs h
      ?_ ?_ ?_ List.Pairwise.nil
    · have hmeas := CheckArriveProcess_measure processes [] [] m.arrival_time
      have h0 : unarrivedBurst processes [] = totalBurst processes := by
        simp [unarrivedBurst, totalBurst]
      have hq0 : queueBurst ([] : List (Process × Nat)) = 0 := rfl
      have hm := hover m (minElementAT_mem processes m hme)
      omega
    · intro pb hpb
      rcases CheckArriveProcess_sched_mem processes [] [] m.arrival_time pb
          hpb with h1 | ⟨q, hq, hqt, he⟩
      · simp at h1
      · rw [he]
        refine ⟨le_refl _, ?_⟩
        simp
        omega
    · intro r hr
      simp at hr

/-- Every result the loop emits comes from an input process and is an image
of the `ProcessResult` constructor applied to that process and the
result's own completion time. -/
theorem RRLoop_emitted (processes : List Process) (time_slice : Nat) :
    ∀ (fuel : Nat) (sched : List (Process × Nat)) (arrived : List Nat)
      (t : Nat) (results out : List ProcessResult),
      RRLoop processes time_slice fuel sched arrived t results = some out →
      (∀ pb ∈ sched, pb.1 ∈ processes) →
      (∀ r ∈ results, r.toProcess ∈ processes ∧
        r = ProcessResult.ofCompletion r.toProcess r.completion_time) →
      ∀ r ∈ out, r.toProcess ∈ processes ∧
        r = ProcessResult.ofCompletion r.toProcess r.completion_time := by
  intro fuel
  induction fuel with
  | zero =>
    intro sched arrived t results out hrun hsched hres
    match sched with
    | [] =>
      rw [RRLoop_nil] at hrun
      cases hrun
      exact hres
    | pb :: rest => exact absurd hrun (by simp [RRLoop])
  | succ f ih =>
    intro sched arrived t results out hrun hsched hres
    match sched with
    | [] =>
      rw [RRLoop_nil] at hrun
      cases hrun
      exact hres
    | (p, bt) :: rest =>
      rw [RRLoop_succ_cons] at hrun
      set elapsed := if bt > time_slice then time_slice else bt with helapsed
      set t2 := u32add t elapsed with ht2
      have hsched2 : ∀ pb ∈ (CheckArriveProcess processes arrived rest t2).2,
          pb.1 ∈ processes := by
        intro pb hpb
        rcases CheckArriveProcess_sched_mem processes arrived rest t2 pb hpb
            with h1 | ⟨q, hql, _, he⟩
        · exact hsched pb (List.mem_cons_of_mem _ h1)
        · rw [he]
          exact hql
      split at hrun
      · next hpos =>
        refine ih _ _ t2 results out hrun ?_ hres
        intro pb hpb
        rcases List.mem_append.1 hpb with h1 | h1
        · exact hsched2 pb h1
        · rw [List.mem_singleton.1 h1]
          exact hsched (p, bt) (List.mem_cons_self _ _)
      · next hpos =>
        refine ih _ _ t2 _ out hrun hsched2 ?_
        intro r hr
        rcases List.mem_append.1 hr with h1 | h1
        · exact hres r h1
        · rw [List.mem_singleton.1 h1]
          exact ⟨hsched (p, bt) (List.mem_cons_self _ _), rfl⟩

theorem RRExecute_emitted (processes : List Process) (time_slice : Nat)
    (rs : List ProcessResult)
    (h : RRExecute processes time_slice = some rs) :
    ∀ r ∈ rs, r.toProcess ∈ processes ∧
      r = ProcessResult.ofCompletion r.toProcess r.completion_time := by
  cases hme : minElementAT processes with
  | none => rw [RRExecute_eq_none _ _ hme] at h; cases h
  | some m =>
    rw [RRExecute_eq_loop _ _ m hme] at h
    refine RRLoop_emitted processes time_slice _ _ _ _ [] rs h ?_ ?_
    · intro pb hpb
      rcases CheckArriveProcess_sched_mem processes [] [] m.arrival_time pb
          hpb with h1 | ⟨q, hq, _, he⟩
      · simp at h1
      · rw [he]
        exact hq
    · intro r hr
      simp at hr

/-- C1: for the test fixture of five processes (ids 0..4, arrivals
70, 9, 3, 5, 30, bursts 3, 2, 39, 29, 90) with time slice 3, `RRExecute`
produces completion times 80, 14, 100, 82, 166 for ids 0, 1, 2, 3, 4
respectively, with the turnaround and waiting times the `ProcessResult`
constructor derives from them. -/
theorem rr_reference_scenario :
    RRExecute testProcesses 3 = some testResults ∧
    (RRExecute testProcesses 3).map
        (fun rs => rs.map (fun r => (r.id, r.completion_time))) =
      some [(1, 14), (0, 80), (3, 82), (2, 100), (4, 166)] :=
  ⟨rfl, rfl⟩

/-- C2: in every loop iteration whose process still has burst time left
after its quantum (so the quantum ends at clock `t + time_slice`, a
`uint32_t` addition), the queue passed to the next iteration is the
remaining queue, then the processes that arrived by the new clock
(including those arriving exactly at that tick, in input order), and only
then the re-enqueued current process. -/
theorem rr_tiebreak_arrivals_before_requeue (processes : List Process)
    (time_slice fuel : Nat) (p : Process) (bt : Nat)
    (rest : List (Process × Nat)) (arrived : List Nat) (t : Nat)
    (results : List ProcessResult)
    (hnodup : (processes.map Process.id).Nodup)
    (hslice : time_slice < bt) :
    RRLoop processes time_slice (fuel + 1) ((p, bt) :: rest) arrived t
        results =
      RRLoop processes time_slice fuel
        (rest ++ newArrivals processes arrived (u32add t time_slice) ++
          [(p, bt - time_slice)])
        (CheckArriveProcess processes arrived rest (u32add t time_slice)).1
        (u32add t time_slice) results := by
  rw [RRLoop_succ_cons]
  have he : (if bt > time_slice then time_slice else bt) = time_slice :=
    if_pos hslice
  rw [he]
  rw [if_pos (show bt - time_slice > 0 by omega)]
  rw [CheckArriveProcess_sched_eq processes arrived rest
    (u32add t time_slice) ((List.pairwise_map).1 hnodup)]

theorem rr_tiebreak_arrivals_before_requeue_witness :
    RRLoop [⟨0, 3, 1⟩, ⟨1, 3, 1⟩, ⟨2, 0, 5⟩] 3 (5 + 1) [(⟨2, 0, 5⟩, 5)] [2] 0
        [] =
      RRLoop [⟨0, 3, 1⟩, ⟨1, 3, 1⟩, ⟨2, 0, 5⟩] 3 5
        ([] ++ newArrivals [⟨0, 3, 1⟩, ⟨1, 3, 1⟩, ⟨2, 0, 5⟩] [2]
            (u32add 0 3) ++
          [(⟨2, 0, 5⟩, 5 - 3)])
        (CheckArriveProcess [⟨0, 3, 1⟩, ⟨1, 3, 1⟩, ⟨2, 0, 5⟩] [2] []
          (u32add 0 3)).1
        (u32add 0 3) [] :=
  rr_tiebreak_arrivals_before_requeue [⟨0, 3, 1⟩, ⟨1, 3, 1⟩, ⟨2, 0, 5⟩] 3 5
    ⟨2, 0, 5⟩ 5 [] [2] 0 [] (by decide) (by decide)

/-- C3: claimed conservation fails on the code.  For the two processes
(id 0, arrival 0, burst 1) and (id 1, arrival 100, burst 1) with time
slice 1, the ready queue empties at clock 1, before process 1 ever arrives,
so the loop exits and `RRExecute` returns a single result: process 1 is
dropped, contradicting both the spec's conservation guarantee and the
file's own claim of starvation-free execution. -/
theorem rr_conservation_failure :
    RRExecute [⟨0, 0, 1⟩, ⟨1, 100, 1⟩] 1 =
      some [ProcessResult.ofCompletion ⟨0, 0, 1⟩ 1] ∧
    (RRExecute [⟨0, 0, 1⟩, ⟨1, 100, 1⟩] 1).map List.length = some 1 :=
  ⟨rfl, rfl⟩

/-- C4: under the preconditions (non-empty process list, positive time
slice, positive burst times) `RRExecute` terminates with a result: the
fuel bound `totalBurst + length + 1` is never exhausted, because the sum of
remaining burst time in the queue plus burst time of not-yet-admitted
processes strictly decreases every iteration. -/
theorem rr_terminates (processes : List Process) (time_slice : Nat)
    (hne : processes ≠ []) (hts : 1 ≤ time_slice)
    (hb : ∀ p ∈ processes, 1 ≤ p.burst_time) :
    (RRExecute processes time_slice).isSome := by
  obtain ⟨m, hm⟩ := minElementAT_isSome processes hne
  rw [RRExecute_eq_loop processes time_slice m hm]
  apply RRLoop_isSome processes time_slice hts hb
  · intro pb hpb
    rcases CheckArriveProcess_sched_mem processes [] [] m.arrival_time pb
        hpb with h1 | ⟨q, hq, _, he⟩
    · simp at h1
    · rw [he]
      exact hb q hq
  · have hmeas := CheckArriveProcess_measure processes [] [] m.arrival_time
    have h0 : unarrivedBurst processes [] = totalBurst processes := by
      simp [unarrivedBurst, totalBurst]
    have hq0 : queueBurst ([] : List (Process × Nat)) = 0 := rfl
    omega

theorem rr_terminates_witness : (RRExecute testProcesses 3).isSome :=
  rr_terminates testProcesses 3 (by decide) (by decide) (by decide)

/-- C5: the claimed lower bound `completion_time ≥ arrival_time +
burst_time` is false of the program as stated: the `uint32_t` clock wraps.
For the single process (id 0, arrival 4294967295, burst 2) with time
slice 3 — an input satisfying every precondition — the clock starts at
4294967295, advances by the burst of 2 and wraps to 1, so the produced
completion time 1 is far below arrival + burst. -/
theorem rr_completion_wrap_cex :
    RRExecute [⟨0, 4294967295, 2⟩] 3 =
      some [ProcessResult.ofCompletion ⟨0, 4294967295, 2⟩ 1] ∧
    ¬ ((ProcessResult.ofCompletion ⟨0, 4294967295, 2⟩ 1).arrival_time +
        (ProcessResult.ofCompletion ⟨0, 4294967295, 2⟩ 1).burst_time ≤
      (ProcessResult.ofCompletion ⟨0, 4294967295, 2⟩ 1).completion_time) :=
  ⟨rfl, by decide⟩

/-- C5 (amended): provided the `uint32_t` clock cannot wrap — every arrival
time plus the total burst of the input stays below `2^32` — every result of
a completed run satisfies `completion_time ≥ arrival_time + burst_time`,
hence `turn_around_time ≥ burst_time`, with the derived fields being the
exact differences the constructor computes (so `waiting_time ≥ 0` holds
trivially and exactly). -/
theorem rr_completion_lower_bound (processes : List Process)
    (time_slice : Nat) (rs : List ProcessResult) (r : ProcessResult)
    (hover : ∀ p ∈ processes,
      p.arrival_time + totalBurst processes < U32MOD)
    (h : RRExecute processes time_slice = some rs) (hr : r ∈ rs) :
    r.arrival_time + r.burst_time ≤ r.completion_time ∧
    r.burst_time ≤ r.turn_around_time ∧
    r.turn_around_time = r.completion_time - r.arrival_time ∧
    r.waiting_time = r.turn_around_time - r.burst_time := by
  have hok := (RRExecute_resultOk processes time_slice rs hover h).1 r hr
  unfold ResultOk at hok
  omega

theorem rr_completion_lower_bound_witness :
    (ProcessResult.ofCompletion ⟨1, 9, 2⟩ 14).arrival_time +
        (ProcessResult.ofCompletion ⟨1, 9, 2⟩ 14).burst_time ≤
      (ProcessResult.ofCompletion ⟨1, 9, 2⟩ 14).completion_time ∧
    (ProcessResult.ofCompletion ⟨1, 9, 2⟩ 14).burst_time ≤
      (ProcessResult.ofCompletion ⟨1, 9, 2⟩ 14).turn_around_time ∧
    (ProcessResult.ofCompletion ⟨1, 9, 2⟩ 14).turn_around_time =
      (ProcessResult.ofCompletion ⟨1, 9, 2⟩ 14).completion_time -
        (ProcessResult.ofCompletion ⟨1, 9, 2⟩ 14).arrival_time ∧
    (ProcessResult.ofCompletion ⟨1, 9, 2⟩ 14).waiting_time =
      (ProcessResult.ofCompletion ⟨1, 9, 2⟩ 14).turn_around_time -
        (ProcessResult.ofCompletion ⟨1, 9, 2⟩ 14).burst_time :=
  rr_completion_lower_bound testProcesses 3 testResults
    (ProcessResult.ofCompletion ⟨1, 9, 2⟩ 14) (by decide) rfl (by decide)

/-- C6: the claim that empty input and a zero time slice are rejected with
an `InvalidArgument` error is false on the code: `RRExecute` performs no
validation at all.  On the empty list the minimum computation has no
result (end-iterator dereference) and with time slice 0 the loop never
finishes, so in both cases no result of any kind is produced. -/
theorem rr_no_invalid_argument_cex :
    RRExecute ([] : List Process) 3 = none ∧
    RRExecute [⟨0, 0, 1⟩] 0 = none :=
  ⟨rfl, rfl⟩

/-- C6 (amended): `RRExecute` performs no input validation.  An empty
process list yields no defined result for any time slice, and with time
slice 0 and a pending process of burst 1 the loop body returns the state
unchanged, so no amount of fuel makes the loop terminate (the C++ loops
forever). -/
theorem rr_no_validation_behavior :
    (∀ time_slice : Nat, RRExecute [] time_slice = none) ∧
    (∀ fuel : Nat,
      RRLoop [⟨0, 0, 1⟩] 0 fuel [(⟨0, 0, 1⟩, 1)] [0] 0 [] = none) := by
  constructor
  · intro time_slice
    rfl
  · intro fuel
    induction fuel with
    | zero => rfl
    | succ f ih => exact ih

/-- C7: the clock starts at the minimum arrival time over the input (the
value `std::min_element` with `CompareAT` finds), the admission check runs
once before the loop, and every process whose arrival time equals that
minimum is in the ready queue before the first quantum executes. -/
theorem rr_initial_admission (processes : List Process) (time_slice : Nat)
    (hne : processes ≠ []) (hnodup : (processes.map Process.id).Nodup) :
    ∃ m : Process,
      minElementAT processes = some m ∧ m ∈ processes ∧
      (∀ p ∈ processes, m.arrival_time ≤ p.arrival_time) ∧
      (∀ p ∈ processes, p.arrival_time = m.arrival_time →
        (p, p.burst_time) ∈
          (CheckArriveProcess processes [] [] m.arrival_time).2) ∧
      RRExecute processes time_slice =
        RRLoop processes time_slice
          (totalBurst processes + processes.length + 1)
          (CheckArriveProcess processes [] [] m.arrival_time).2
          (CheckArriveProcess processes [] [] m.arrival_time).1
          m.arrival_time [] := by
  obtain ⟨m, hm⟩ := minElementAT_isSome processes hne
  refine ⟨m, hm, minElementAT_mem _ _ hm, minElementAT_le _ _ hm, ?_,
    RRExecute_eq_loop _ _ m hm⟩
  intro p hp hpe
  rw [CheckArriveProcess_sched_eq processes [] [] m.arrival_time
    ((List.pairwise_map).1 hnodup)]
  rw [List.nil_append]
  unfold newArrivals
  exact List.mem_map_of_mem _ (List.mem_filter.2 ⟨hp, by simp [hpe]⟩)

theorem rr_initial_admission_witness :
    ∃ m : Process,
      minElementAT testProcesses = some m ∧ m ∈ testProcesses ∧
      (∀ p ∈ testProcesses, m.arrival_time ≤ p.arrival_time) ∧
      (∀ p ∈ testProcesses, p.arrival_time = m.arrival_time →
        (p, p.burst_time) ∈
          (CheckArriveProcess testProcesses [] [] m.arrival_time).2) ∧
      RRExecute testProcesses 3 =
        RRLoop testProcesses 3
          (totalBurst testProcesses + testProcesses.length + 1)
          (CheckArriveProcess testProcesses [] [] m.arrival_time).2
          (CheckArriveProcess testProcesses [] [] m.arrival_time).1
          m.arrival_time [] :=
  rr_initial_admission testProcesses 3 (by decide) (by decide)

/-- C8: the claim that `waiting_time = 0` can hold only for a process that
is never re-enqueued after a quantum is false.  The single process
(id 0, arrival 0, burst 5) with time slice 3 runs 3 units, is re-enqueued
(the instrumented run records id 0 in the requeue list), runs the last 2
units and completes at 5 — yet its waiting time is 0 and its completion
time equals arrival + burst. -/
theorem rr_waiting_zero_requeued_cex :
    RRExecuteRequeues [⟨0, 0, 5⟩] 3 =
      some ([ProcessResult.ofCompletion ⟨0, 0, 5⟩ 5], [0]) ∧
    (ProcessResult.ofCompletion ⟨0, 0, 5⟩ 5).waiting_time = 0 ∧
    RRExecute [⟨0, 0, 5⟩] 3 =
      some [ProcessResult.ofCompletion ⟨0, 0, 5⟩ 5] :=
  ⟨rfl, rfl, rfl⟩

/-- C8 (amended): a result's waiting time is zero exactly when its
turnaround time equals its burst time — its whole measured time in system
was spent running, so it was never kept waiting; it may nevertheless have
been preempted and re-enqueued during that time (whenever the queue held no
other process).  Burst times below `2^32` is the `uint32_t` representation
constraint on the input, not an extra assumption. -/
theorem rr_waiting_zero_iff_zero_wait (processes : List Process)
    (time_slice : Nat) (rs : List ProcessResult) (r : ProcessResult)
    (hwf : ∀ p ∈ processes, p.burst_time < U32MOD)
    (h : RRExecute processes time_slice = some rs) (hr : r ∈ rs) :
    r.waiting_time = 0 ↔ r.turn_around_time = r.burst_time := by
  obtain ⟨hprov, hctor⟩ := RRExecute_emitted processes time_slice rs h r hr
  have hb : r.burst_time < U32MOD := hwf r.toProcess hprov
  have hta := congrArg ProcessResult.turn_around_time hctor
  have hw := congrArg ProcessResult.waiting_time hctor
  simp only [ProcessResult.ofCompletion] at hta hw
  rw [← hta] at hw
  have hta_lt : r.turn_around_time < U32MOD := by
    rw [hta]
    exact u32sub_lt _ _
  rw [hw]
  exact u32sub_eq_zero_iff hta_lt hb

theorem rr_waiting_zero_iff_zero_wait_witness :
    (ProcessResult.ofCompletion ⟨0, 70, 3⟩ 80).waiting_time = 0 ↔
      (ProcessResult.ofCompletion ⟨0, 70, 3⟩ 80).turn_around_time =
        (ProcessResult.ofCompletion ⟨0, 70, 3⟩ 80).burst_time :=
  rr_waiting_zero_iff_zero_wait testProcesses 3 testResults
    (ProcessResult.ofCompletion ⟨0, 70, 3⟩ 80) (by decide) rfl (by decide)

/-- C9: the formatter renders a header row of the six column titles
followed by one row per result, rows sorted by arrival time ascending (a
permutation of the input of the same length — the input itself is not
modified, the sort acts on a copy), every cell left-aligned: padded on the
right with spaces to the fixed column width 17.  It is a total function
and never fails. -/
theorem printResults_table_spec (results : List ProcessResult) :
    ∃ sorted : List ProcessResult,
      sorted.Perm results ∧
      List.Sorted ArrivalLE sorted ∧
      sorted.length = results.length ∧
      printResults results =
        renderRow headerCells ++ "\n" ++
          String.join (sorted.map (fun p => renderRow (resultCells p) ++ "\n")) ∧
      (∀ s : String, s.length ≤ 17 → (PrintCell s).length = 17) ∧
      (∀ s : String, ∃ pad : String, PrintCell s = s ++ pad ∧
        pad.length = 17 - s.length) := by
  refine ⟨results.insertionSort ArrivalLE, List.perm_insertionSort _ _,
    List.sorted_insertionSort _ _, (List.perm_insertionSort _ _).length_eq,
    rfl, ?_, ?_⟩
  · intro s hs
    simp [PrintCell, String.length_append, String.length_mk]
    omega
  · intro s
    refine ⟨String.mk (List.replicate (17 - s.length) ' '), rfl, ?_⟩
    simp [String.length_mk]

theorem printResults_table_spec_witness :
    ∃ sorted : List ProcessResult,
      sorted.Perm [ProcessResult.ofCompletion ⟨0, 0, 5⟩ 5] ∧
      List.Sorted ArrivalLE sorted ∧
      sorted.length = [ProcessResult.ofCompletion ⟨0, 0, 5⟩ 5].length ∧
      printResults [ProcessResult.ofCompletion ⟨0, 0, 5⟩ 5] =
        renderRow headerCells ++ "\n" ++
          String.join (sorted.map (fun p => renderRow (resultCells p) ++ "\n")) ∧
      (∀ s : String, s.length ≤ 17 → (PrintCell s).length = 17) ∧
      (∀ s : String, ∃ pad : String, PrintCell s = s ++ pad ∧
        pad.length = 17 - s.length) :=
  printResults_table_spec [ProcessResult.ofCompletion ⟨0, 0, 5⟩ 5]

/-- C10: the claimed nondecreasing completion-time order is false of the
program as stated, because the `uint32_t` clock can decrease by wrapping.
For processes (id 0, arrival 0, burst 4294967295) and (id 1, arrival 0,
burst 2) with time slice 4294967295, process 0 completes at clock
4294967295, then the clock wraps to 1 while running process 1, so the
emitted completion times are 4294967295 followed by 1 — decreasing. -/
theorem rr_clock_wrap_unsorted_cex :
    RRExecute [⟨0, 0, 4294967295⟩, ⟨1, 0, 2⟩] 4294967295 =
      some [ProcessResult.ofCompletion ⟨0, 0, 4294967295⟩ 4294967295,
        ProcessResult.ofCompletion ⟨1, 0, 2⟩ 1] ∧
    ¬ List.Sorted
        (fun r1 r2 : ProcessResult =>
          r1.completion_time ≤ r2.completion_time)
        [ProcessResult.ofCompletion ⟨0, 0, 4294967295⟩ 4294967295,
         ProcessResult.ofCompletion ⟨1, 0, 2⟩ 1] :=
  ⟨rfl, by decide⟩

/-- C10 (amended): provided the `uint32_t` clock cannot wrap — every
arrival time plus the total burst of the input stays below `2^32` — the
result vector is emitted in nondecreasing completion-time order: each
result is appended with the current clock as its completion time and the
clock then never decreases. -/
theorem rr_results_sorted_by_completion (processes : List Process)
    (time_slice : Nat) (rs : List ProcessResult)
    (hover : ∀ p ∈ processes,
      p.arrival_time + totalBurst processes < U32MOD)
    (h : RRExecute processes time_slice = some rs) :
    List.Sorted (fun r1 r2 => r1.completion_time ≤ r2.completion_time) rs :=
  (RRExecute_resultOk processes time_slice rs hover h).2

theorem rr_results_sorted_by_completion_witness :
    List.Sorted
      (fun r1 r2 : ProcessResult => r1.completion_time ≤ r2.completion_time)
      testResults :=
  rr_results_sorted_by_completion testProcesses 3 testResults (by decide) rfl
